import Mathlib

/-!
Verification of the depth-utilities module (`envs/utils/depth_utils.py`):
shallow embedding of `bin_points`, `splat_feat_nd` and
`get_camera_intrinsic_parameters`, together with theorems settling the
specification claims about them.

Floating-point values are modelled as exact rationals with an explicit NaN
marker; machine-integer casts are modelled with explicit wrap-around at
32 bits.  `inf` is not modelled: divisions assume a nonzero divisor
(`xy_resolution` is a physical resolution and is never zero in the module's
callers).
-/

namespace DepthUtils

/-- A floating-point scalar: either NaN or an exact rational value. -/
inductive Fl where
  | nan : Fl
  | val : ℚ → Fl
deriving DecidableEq

/-- `x / r` on modelled floats: NaN propagates, otherwise exact division.
(Assumes `r ≠ 0`; a zero resolution would give `inf` in the source, a
degenerate input the module does not pre-validate.) -/
def Fl.divQ : Fl → ℚ → Fl
  | .nan, _ => .nan
  | .val q, r => .val (q / r)

/-- Round half to even, the rounding used by `np.round` and `ops.round`. -/
def roundEven (q : ℚ) : ℤ :=
  let f := ⌊q⌋
  let r := q - (f : ℚ)
  if r < 1 / 2 then f
  else if 1 / 2 < r then f + 1
  else if f % 2 = 0 then f else f + 1

/-- Wrap an integer into the `int32` range, modelling `astype(np.int32)`
on an integral value (de-facto two's-complement wrap-around). -/
def wrap32 (k : ℤ) : ℤ := (k + 2 ^ 31) % 2 ^ 32 - 2 ^ 31

/-- `np.round(x).astype(np.int32)`: NaN casts to the de-facto value
`INT32_MIN`; a numeric value is rounded half-to-even then wrapped. -/
def toInt32 : Fl → ℤ
  | .nan => -(2 ^ 31)
  | .val q => wrap32 (roundEven q)

/-- `np.digitize(q, bins)` (with `right=False`) for monotonically
increasing `bins`: the number of thresholds `≤ q`. -/
def digitizeQ (q : ℚ) (bins : List ℚ) : ℕ :=
  (bins.filter (fun b => b ≤ q)).length

/-- `np.digitize` on a modelled float: NaN sorts after every threshold
(`searchsorted` sends it to the end), giving index `bins.length`. -/
def digitizeF : Fl → List ℚ → ℕ
  | .nan, bins => bins.length
  | .val q, bins => digitizeQ q bins

/-- One 3D point `(X, Y, Z)` of the input cloud. -/
abbrev Pt := Fl × Fl × Fl

/-- `X_bin = np.round(X / xy_resolution).astype(np.int32)`. -/
def xBinOf (res : ℚ) (p : Pt) : ℤ := toInt32 (p.1.divQ res)

/-- `Y_bin = np.round(Y / xy_resolution).astype(np.int32)`. -/
def yBinOf (res : ℚ) (p : Pt) : ℤ := toInt32 (p.2.1.divQ res)

/-- `Z_bin = np.digitize(Z, bins=z_bins)` (naturally nonnegative, so the
source's `Z_bin >= 0` test is always true). -/
def zBinOf (zbins : List ℚ) (p : Pt) : ℕ := digitizeF p.2.2 zbins

/-- The source's validity test for a point: `X_bin`, `Y_bin` in
`[0, map_size)`, `Z_bin` in `[0, n_z_bins)`, and `X` (only `X`) not NaN. -/
def isvalid (m : ℕ) (zbins : List ℚ) (res : ℚ) (p : Pt) : Bool :=
  0 ≤ xBinOf res p && xBinOf res p < (m : ℤ) &&
  (0 ≤ yBinOf res p && yBinOf res p < (m : ℤ)) &&
  zBinOf zbins p < zbins.length + 1 &&
  p.1 ≠ Fl.nan

/-- The flattened linear index `(Y_bin * map_size + X_bin) * n_z_bins +
Z_bin`, with invalid points clobbered to index `0` as in the source
(`ind[np.logical_not(isvalid)] = 0`). -/
def indOf (m nz : ℕ) (zbins : List ℚ) (res : ℚ) (p : Pt) : ℕ :=
  if isvalid m zbins res p then
    ((yBinOf res p * m + xBinOf res p) * nz + zBinOf zbins p).toNat
  else 0

/-- `np.bincount(inds, weights, minlength)`: cell `i` holds the sum of the
weights of the entries equal to `i`.  (All indices produced by `bin_points`
are `< minlength`, so the length is exactly `minlength`.) -/
def bincountW (inds ws : List ℕ) (minlength : ℕ) : List ℕ :=
  (List.range minlength).map
    (fun i => (((inds.zip ws).filter (fun pr => pr.1 = i)).map Prod.snd).sum)

/-- The per-batch-slice body of `bin_points`: histogram one point list
(the raveled `H × W` slice) into a flat `map_size * map_size * n_z_bins`
count grid.  Valid points contribute weight 1 at their linear index,
invalid points weight 0 at index 0. -/
def binPointsSlice (pts : List Pt) (m : ℕ) (zbins : List ℚ) (res : ℚ) :
    List ℕ :=
  let nz := zbins.length + 1
  bincountW (pts.map (indOf m nz zbins res))
    (pts.map (fun p => if isvalid m zbins res p then 1 else 0))
    (m * m * nz)

/-- `bin_points` over a batched input (the list of leading batch slices,
each already raveled).  The source's loop rebinds `counts` to the current
slice's grid instead of appending it, so after the loop only the LAST
slice's flat grid remains; the final reshape to
`[B, map_size, map_size, n_z_bins]` then succeeds only when the element
counts match, i.e. only for `B = 1` (or an empty grid).  A failed reshape
raises, modelled as `none`. -/
def bin_points (batches : List (List Pt)) (m : ℕ) (zbins : List ℚ)
    (res : ℚ) : Option (List ℕ) :=
  let counts := batches.foldl (fun _ slice => binPointsSlice slice m zbins res)
    ([] : List ℕ)
  if counts.length = batches.length * (m * m * (zbins.length + 1)) then
    some counts
  else none

/-! ### The N-dimensional multilinear splatter `splat_feat_nd`

The splatter is modelled for one batch element (the source asserts
`index.shape[0] == 1` before touching the grid; a batch size other than 1
fails that assertion, modelled as `none`).  The grid is the flattened
`grid_flat`: one row of length `D1 * ... * Dn` per feature channel. -/

/-- Per-dimension data computed by the first loop of `splat_feat_nd` for
one point: the dimension size `D`, the fractional position `pos`, and for
each of the two neighbors `ix ∈ {0, 1}` the masked integer position
(`pos_ix * safe_ix`) and masked weight (`wts_ix * safe_ix`). -/
structure DimData where
  D : ℕ
  pos : ℚ
  p0 : ℕ
  p1 : ℕ
  w0 : ℚ
  w1 : ℚ
deriving DecidableEq

/-- One neighbor's masked `(pos_ix, wts_ix)` pair: `pos_ix = floor(pos) +
ix`; the safety mask requires `0 < pos_ix < D`; a masked-out neighbor
carries position `0` and weight `0`. -/
def neighborData (D : ℕ) (pos : ℚ) (ix : ℕ) : ℕ × ℚ :=
  let pi : ℤ := ⌊pos⌋ + ix
  if 0 < pi ∧ pi < (D : ℤ) then (pi.toNat, 1 - |pos - (pi : ℚ)|)
  else (0, 0)

/-- The per-dimension computation of `splat_feat_nd`'s first loop:
`pos = coord * D / 2 + D / 2`, then both neighbors. -/
def dimData (D : ℕ) (coord : ℚ) : DimData :=
  let pos : ℚ := coord * D / 2 + D / 2
  let n0 := neighborData D pos 0
  let n1 := neighborData D pos 1
  ⟨D, pos, n0.1, n1.1, n0.2, n1.2⟩

/-- Coordinate of point `p` along dimension `d` (batch element 0). -/
def coordAt (coords : List (List ℚ)) (d p : ℕ) : ℚ :=
  (coords.getD d []).getD p 0

/-- The list `[dimData D_0 c_0, ..., dimData D_{n-1} c_{n-1}]` for one
point: the columns of `pos_dim` / `wts_dim` relevant to point `p`. -/
def pointDimData (dims : List ℕ) (coords : List (List ℚ)) (p : ℕ) :
    List DimData :=
  (List.range dims.length).map
    (fun d => dimData (dims.getD d 0) (coordAt coords d p))

/-- `itertools.product([0, 1], repeat = n)`: all `2^n` neighbor choices,
first dimension varying slowest, exactly in the source's order. -/
def combos : ℕ → List (List ℕ)
  | 0 => [[]]
  | n + 1 => (combos n).map (fun c => 0 :: c) ++ (combos n).map (fun c => 1 :: c)

/-- `pos_dim[d][ix_d[d]]` for one point. -/
def chooseP (dd : DimData) (b : ℕ) : ℕ := if b = 0 then dd.p0 else dd.p1

/-- `wts_dim[d][ix_d[d]]` for one point. -/
def chooseW (dd : DimData) (b : ℕ) : ℚ := if b = 0 then dd.w0 else dd.w1

/-- The source's flattened-index fold `index = index * grid_dims[d] +
pos_dim[d][ix_d[d]]`, with accumulator. -/
def combIndexGo : List DimData → List ℕ → ℕ → ℕ
  | [], _, acc => acc
  | dd :: ds, c, acc => combIndexGo ds c.tail (acc * dd.D + chooseP dd (c.headD 0))

/-- Flattened grid index of one point for one neighbor combination. -/
def combIndex (ds : List DimData) (c : List ℕ) : ℕ := combIndexGo ds c 0

/-- The source's weight fold `wts = wts * wts_dim[d][ix_d[d]]`, with
accumulator. -/
def combWtsGo : List DimData → List ℕ → ℚ → ℚ
  | [], _, acc => acc
  | dd :: ds, c, acc => combWtsGo ds c.tail (acc * chooseW dd (c.headD 0))

/-- Combined interpolation weight of one point for one combination. -/
def combWts (ds : List DimData) (c : List ℕ) : ℚ := combWtsGo ds c 1

/-- `grid_flat[..., index] += updates` for one row: the right-hand side is
gathered from the PRE-update row, then scattered; with duplicate indices
each write stores `old + its own update`, so duplicates do NOT accumulate
(the surviving write is the last one, as in the numpy buffering
semantics). -/
def fancyAdd (row : List ℚ) (pairs : List (ℕ × ℚ)) : List ℚ :=
  pairs.foldl (fun acc pr => acc.set pr.1 (row.getD pr.1 0 + pr.2)) row

/-- One iteration of the combination loop: scatter `feat * wts` of every
point into each feature row, then round the whole grid half-to-even
(`grid_flat = ops.round(grid_flat)` runs INSIDE the loop). -/
def stepCombo (dims : List ℕ) (coords : List (List ℚ)) (P : ℕ)
    (feat : List (List ℚ)) (g : List (List ℚ)) (c : List ℕ) :
    List (List ℚ) :=
  (List.zipWith
      (fun row frow => fancyAdd row
        ((List.range P).map (fun p =>
          (combIndex (pointDimData dims coords p) c,
           frow.getD p 0 * combWts (pointDimData dims coords p) c))))
      g feat).map
    (fun row => row.map (fun q => ((roundEven q : ℤ) : ℚ)))

/-- `splat_feat_nd(init_grid, feat, coords)`.  `B` is the batch dimension
of the inputs; `dims` the grid dimensions `init_grid.shape[2:]`; `grid0`
the flattened grid rows (one per feature channel); `feat` the feature
rows; `coords` the per-dimension coordinate rows; `P` the number of
points.  The assertion `index.shape[0] == 1` fails (before any grid
update) whenever `B ≠ 1`. -/
def splat_feat_nd (B : ℕ) (dims : List ℕ)
    (grid0 feat coords : List (List ℚ)) (P : ℕ) :
    Option (List (List ℚ)) :=
  if B = 1 then
    some ((combos dims.length).foldl (stepCombo dims coords P feat) grid0)
  else none

/-- One iteration of the combination loop WITHOUT the rounding step:
comparison definition used to exhibit that the source's per-iteration
rounding is observable (it compounds across iterations). -/
def stepComboNoRound (dims : List ℕ) (coords : List (List ℚ)) (P : ℕ)
    (feat : List (List ℚ)) (g : List (List ℚ)) (c : List ℕ) :
    List (List ℚ) :=
  List.zipWith
    (fun row frow => fancyAdd row
      ((List.range P).map (fun p =>
        (combIndex (pointDimData dims coords p) c,
         frow.getD p 0 * combWts (pointDimData dims coords p) c))))
    g feat

/-- Variant of `splat_feat_nd` that rounds only once, after all
combinations: the alternative behavior named by the spec's ambiguity
flag. -/
def splatRoundOnce (B : ℕ) (dims : List ℕ)
    (grid0 feat coords : List (List ℚ)) (P : ℕ) :
    Option (List (List ℚ)) :=
  if B = 1 then
    some (((combos dims.length).foldl (stepComboNoRound dims coords P feat)
        grid0).map
      (fun row => row.map (fun q => ((roundEven q : ℤ) : ℚ))))
  else none

/-- The intrinsic parameters returned by
`get_camera_intrinsic_parameters`. -/
structure CameraIntrinsics where
  cx : ℚ
  cy : ℚ
  fx : ℚ
  fy : ℚ
  xc : ℚ
  zc : ℚ
  f : ℚ
deriving DecidableEq

/-- `get_camera_intrinsic_parameters(width, height, hfov)`.  The
transcendental value `tan(deg2rad(hfov / 2))` is abstracted as the exact
parameter `temp` (the source's variable of the same name). -/
def get_camera_intrinsic_parameters (width height temp : ℚ) :
    CameraIntrinsics :=
  let aspect := 1 * width / height
  { cx := width / 2
    cy := height / 2
    fx := width / 2 / temp
    fy := height / 2 / (temp / aspect)
    xc := (width - 1) / 2
    zc := (height - 1) / 2
    f := width / 2 / temp }

/-! ### Helper lemmas -/

/-- The weight fold with accumulator equals the accumulator times the
fold started at 1. -/
theorem combWtsGo_eq_mul (ds : List DimData) :
    ∀ (c : List ℕ) (a : ℚ), combWtsGo ds c a = a * combWts ds c := by
  induction ds with
  | nil =>
    intro c a
    show a = a * (1 : ℚ)
    rw [mul_one]
  | cons dd ds ih =>
    intro c a
    show combWtsGo ds c.tail (a * chooseW dd (c.headD 0)) =
      a * combWtsGo ds c.tail (1 * chooseW dd (c.headD 0))
    rw [ih, ih]
    ring

/-- Unfolding of the combination weight on a cons cell. -/
theorem combWts_cons (dd : DimData) (ds : List DimData) (c : List ℕ) :
    combWts (dd :: ds) c = chooseW dd (c.headD 0) * combWts ds c.tail := by
  show combWtsGo ds c.tail (1 * chooseW dd (c.headD 0)) = _
  rw [combWtsGo_eq_mul]
  ring

/-- Distributivity of the combination sum: summing the combined weights
over all `2^n` neighbor choices factors into the product over dimensions
of the per-dimension weight sums. -/
theorem sum_combos_combWts (ds : List DimData) :
    ((combos ds.length).map (combWts ds)).sum =
      (ds.map (fun dd => dd.w0 + dd.w1)).prod := by
  induction ds with
  | nil =>
    show ((combos 0).map (combWts [])).sum = ([] : List ℚ).prod
    simp [combos, combWts, combWtsGo]
  | cons dd ds ih =>
    show ((combos (ds.length + 1)).map (combWts (dd :: ds))).sum = _
    simp only [combos, List.map_append, List.sum_append, List.map_map]
    have h0 : (combWts (dd :: ds) ∘ fun c => 0 :: c) =
        fun c => dd.w0 * combWts ds c := by
      funext c
      simp [Function.comp, combWts_cons, chooseW]
    have h1 : (combWts (dd :: ds) ∘ fun c => 1 :: c) =
        fun c => dd.w1 * combWts ds c := by
      funext c
      simp [Function.comp, combWts_cons, chooseW]
    rw [h0, h1, List.sum_map_mul_left, List.sum_map_mul_left, ih,
      List.map_cons, List.prod_cons]
    ring

/-- When both neighbors of a dimension pass the safety mask, their two
interpolation weights sum to exactly 1. -/
theorem dimData_w_sum (D : ℕ) (coord : ℚ)
    (h0 : 0 < ⌊(dimData D coord).pos⌋)
    (h1 : ⌊(dimData D coord).pos⌋ + 1 < (D : ℤ)) :
    (dimData D coord).w0 + (dimData D coord).w1 = 1 := by
  have hq : (dimData D coord).pos = coord * D / 2 + D / 2 := rfl
  set q : ℚ := coord * D / 2 + D / 2 with hqdef
  rw [hq] at h0 h1
  have e0 : (dimData D coord).w0 = (neighborData D q 0).2 := rfl
  have e1 : (dimData D coord).w1 = (neighborData D q 1).2 := rfl
  rw [e0, e1]
  have c0 : (0 : ℤ) < ⌊q⌋ + ((0 : ℕ) : ℤ) ∧ ⌊q⌋ + ((0 : ℕ) : ℤ) < (D : ℤ) := by
    push_cast
    omega
  have c1 : (0 : ℤ) < ⌊q⌋ + ((1 : ℕ) : ℤ) ∧ ⌊q⌋ + ((1 : ℕ) : ℤ) < (D : ℤ) := by
    push_cast
    omega
  show (if 0 < ⌊q⌋ + ((0 : ℕ) : ℤ) ∧ ⌊q⌋ + ((0 : ℕ) : ℤ) < (D : ℤ) then
      ((⌊q⌋ + ((0 : ℕ) : ℤ)).toNat, 1 - |q - ((⌊q⌋ + ((0 : ℕ) : ℤ) : ℤ) : ℚ)|)
    else ((0 : ℕ), (0 : ℚ))).2 +
    (if 0 < ⌊q⌋ + ((1 : ℕ) : ℤ) ∧ ⌊q⌋ + ((1 : ℕ) : ℤ) < (D : ℤ) then
      ((⌊q⌋ + ((1 : ℕ) : ℤ)).toNat, 1 - |q - ((⌊q⌋ + ((1 : ℕ) : ℤ) : ℤ) : ℚ)|)
    else ((0 : ℕ), (0 : ℚ))).2 = 1
  rw [if_pos c0, if_pos c1]
  have hfl : ((⌊q⌋ : ℤ) : ℚ) ≤ q := Int.floor_le q
  have hfu : q < ((⌊q⌋ : ℤ) : ℚ) + 1 := Int.lt_floor_add_one q
  have a0 : |q - ((⌊q⌋ + ((0 : ℕ) : ℤ) : ℤ) : ℚ)| = q - ((⌊q⌋ : ℤ) : ℚ) := by
    push_cast
    rw [abs_of_nonneg (by linarith)]
    ring
  have a1 : |q - ((⌊q⌋ + ((1 : ℕ) : ℤ) : ℤ) : ℚ)| = ((⌊q⌋ : ℤ) : ℚ) + 1 - q := by
    push_cast
    rw [abs_of_nonpos (by linarith)]
    ring
  simp only
  rw [a0, a1]
  ring

/-- Pointwise sums split. -/
theorem sum_map_add_nat (l : List ℕ) (f g : ℕ → ℕ) :
    (l.map (fun i => f i + g i)).sum = (l.map f).sum + (l.map g).sum := by
  induction l with
  | nil => simp
  | cons x xs ih =>
    simp only [List.map_cons, List.sum_cons, ih]
    omega

/-- Summing a single-index indicator over `range M` yields the weight
exactly when the index is in range. -/
theorem sum_map_indicator (M j w : ℕ) :
    ((List.range M).map (fun i => if j = i then w else 0)).sum =
      if j < M then w else 0 := by
  induction M with
  | zero => simp
  | succ M ih =>
    rw [List.range_succ, List.map_append, List.sum_append]
    simp only [List.map_cons, List.sum_cons, List.map_nil, List.sum_nil, ih]
    split_ifs <;> omega

/-- Total mass of a weighted histogram: if every entry's index is in
range (or carries weight 0), the histogram cells sum to the total
weight. -/
theorem bincount_sum (M : ℕ) :
    ∀ L : List (ℕ × ℕ), (∀ pr ∈ L, pr.1 < M ∨ pr.2 = 0) →
      ((List.range M).map
        (fun i => ((L.filter (fun pr => pr.1 = i)).map Prod.snd).sum)).sum =
      (L.map Prod.snd).sum := by
  intro L
  induction L with
  | nil => simp
  | cons pr L ih =>
    intro h
    have hL := fun q hq => h q (List.mem_cons_of_mem _ hq)
    have hpr := h pr (List.mem_cons_self _ _)
    have hstep : ∀ i : ℕ,
        (((pr :: L).filter (fun x => x.1 = i)).map Prod.snd).sum =
        (if pr.1 = i then pr.2 else 0) +
          ((L.filter (fun x => x.1 = i)).map Prod.snd).sum := by
      intro i
      by_cases hpi : pr.1 = i
      · simp [List.filter_cons, hpi]
      · simp [List.filter_cons, hpi]
    simp only [hstep]
    rw [sum_map_add_nat, sum_map_indicator, ih hL]
    simp only [List.map_cons, List.sum_cons]
    rcases hpr with hlt | hz
    · rw [if_pos hlt]
    · rw [hz]
      simp

/-- A 0/1 indicator sum is a `countP`. -/
theorem sum_ite_one (pts : List Pt) (f : Pt → Bool) :
    (pts.map (fun p => if f p then 1 else 0)).sum = pts.countP f := by
  induction pts with
  | nil => simp
  | cons p ps ih =>
    simp only [List.map_cons, List.sum_cons, List.countP_cons, ih]
    by_cases h : f p
    · simp [h]
      omega
    · simp [h]

/-- A valid point's linear index is within the flat grid. -/
theorem indOf_lt (m : ℕ) (zbins : List ℚ) (res : ℚ) (p : Pt)
    (hv : isvalid m zbins res p = true) :
    indOf m (zbins.length + 1) zbins res p < m * m * (zbins.length + 1) := by
  simp only [isvalid, Bool.and_eq_true, decide_eq_true_eq] at hv
  obtain ⟨⟨⟨⟨hx0, hx1⟩, hy0, hy1⟩, hz⟩, hnan⟩ := hv
  unfold indOf
  rw [if_pos (by
    simp only [isvalid, Bool.and_eq_true, decide_eq_true_eq]
    exact ⟨⟨⟨⟨hx0, hx1⟩, hy0, hy1⟩, hz⟩, hnan⟩)]
  have hm0 : (0 : ℤ) ≤ (m : ℤ) := Int.ofNat_nonneg m
  have hnz : (0 : ℤ) < ((zbins.length + 1 : ℕ) : ℤ) := by
    exact_mod_cast Nat.succ_pos zbins.length
  have hzc : ((zBinOf zbins p : ℕ) : ℤ) < ((zbins.length + 1 : ℕ) : ℤ) := by
    exact_mod_cast hz
  have hz0 : (0 : ℤ) ≤ ((zBinOf zbins p : ℕ) : ℤ) := Int.ofNat_nonneg _
  have ha : yBinOf res p * m + xBinOf res p ≤ (m : ℤ) * m - 1 := by
    nlinarith [mul_le_mul_of_nonneg_right (show yBinOf res p ≤ (m : ℤ) - 1 by
      omega) hm0]
  have ha0 : 0 ≤ yBinOf res p * m + xBinOf res p := by
    have := mul_nonneg hy0 hm0
    omega
  have key : (yBinOf res p * m + xBinOf res p) * ((zbins.length + 1 : ℕ) : ℤ)
      + ((zBinOf zbins p : ℕ) : ℤ) < (m : ℤ) * m * ((zbins.length + 1 : ℕ) : ℤ) := by
    nlinarith [mul_le_mul_of_nonneg_right ha (le_of_lt hnz)]
  have hkey0 : (0 : ℤ) ≤
      (yBinOf res p * m + xBinOf res p) * ((zbins.length + 1 : ℕ) : ℤ)
      + ((zBinOf zbins p : ℕ) : ℤ) :=
    add_nonneg (mul_nonneg ha0 (le_of_lt hnz)) hz0
  rw [Int.toNat_lt hkey0]
  push_cast at key ⊢
  linarith [key]

/-- A masked-out neighbor (position 0) always carries weight 0: if the
safety mask passed, the stored position would be strictly positive. -/
theorem neighborData_p_eq_zero (D : ℕ) (pos : ℚ) (ix : ℕ)
    (h : (neighborData D pos ix).1 = 0) : (neighborData D pos ix).2 = 0 := by
  simp only [neighborData] at h ⊢
  split_ifs at h ⊢ with hc
  · exfalso
    omega
  · rfl

/-- Every per-dimension record of a point satisfies: a zero stored
position implies a zero stored weight. -/
theorem pointDimData_wf (dims : List ℕ) (coords : List (List ℚ)) (p : ℕ) :
    ∀ dd ∈ pointDimData dims coords p,
      (dd.p0 = 0 → dd.w0 = 0) ∧ (dd.p1 = 0 → dd.w1 = 0) := by
  intro dd hdd
  rw [pointDimData, List.mem_map] at hdd
  obtain ⟨d, _, rfl⟩ := hdd
  exact ⟨fun h => neighborData_p_eq_zero _ _ _ h,
    fun h => neighborData_p_eq_zero _ _ _ h⟩

/-- If the flattened-index fold lands on 0 for a nonempty dimension
list whose records are well-formed (zero position forces zero weight),
the combination's weight is 0: index 0 is reachable only through
masked-out neighbors. -/
theorem combIndexGo_zero (ds : List DimData) :
    ∀ (c : List ℕ) (acc : ℕ),
      (∀ dd ∈ ds, (dd.p0 = 0 → dd.w0 = 0) ∧ (dd.p1 = 0 → dd.w1 = 0)) →
      combIndexGo ds c acc = 0 →
      (ds = [] → acc = 0) ∧ (ds ≠ [] → combWts ds c = 0) := by
  induction ds with
  | nil =>
    intro c acc _ h
    exact ⟨fun _ => h, fun hne => absurd rfl hne⟩
  | cons dd ds ih =>
    intro c acc hwf h
    refine ⟨fun hcon => by simp at hcon, fun _ => ?_⟩
    have hwf' := fun q hq => hwf q (List.mem_cons_of_mem _ hq)
    have hdd := hwf dd (List.mem_cons_self _ _)
    have h' : combIndexGo ds c.tail (acc * dd.D + chooseP dd (c.headD 0)) = 0 := h
    have ihres := ih c.tail (acc * dd.D + chooseP dd (c.headD 0)) hwf' h'
    rw [combWts_cons]
    by_cases hds : ds = []
    · subst hds
      have hacc : acc * dd.D + chooseP dd (c.headD 0) = 0 := ihres.1 rfl
      have hp : chooseP dd (c.headD 0) = 0 := by omega
      have hw : chooseW dd (c.headD 0) = 0 := by
        by_cases hb : c.headD 0 = 0
        · rw [chooseW, if_pos hb]
          exact hdd.1 (by rwa [chooseP, if_pos hb] at hp)
        · rw [chooseW, if_neg hb]
          exact hdd.2 (by rwa [chooseP, if_neg hb] at hp)
      rw [hw, zero_mul]
    · rw [ihres.2 hds, mul_zero]

/-- Setting a positive position leaves the head unchanged. -/
theorem headD_set_succ (l : List ℚ) (k : ℕ) (v : ℚ) :
    (l.set (k + 1) v).headD 0 = l.headD 0 := by
  cases l <;> rfl

/-- `getD 0` is the default-valued head. -/
theorem getD_zero_eq_headD (l : List ℚ) : l.getD 0 0 = l.headD 0 := by
  cases l <;> rfl

/-- The gather-scatter update leaves the head untouched when every pair
aimed at index 0 carries a zero update. -/
theorem fancyAdd_headD (row : List ℚ) (pairs : List (ℕ × ℚ))
    (h : ∀ pr ∈ pairs, pr.1 = 0 → pr.2 = 0) :
    (fancyAdd row pairs).headD 0 = row.headD 0 := by
  suffices hgen : ∀ (ps : List (ℕ × ℚ)) (acc : List ℚ),
      (∀ pr ∈ ps, pr.1 = 0 → pr.2 = 0) →
      acc.headD 0 = row.headD 0 →
      (ps.foldl (fun a pr => a.set pr.1 (row.getD pr.1 0 + pr.2)) acc).headD 0
        = row.headD 0 by
    exact hgen pairs row h rfl
  intro ps
  induction ps with
  | nil =>
    intro acc _ hacc
    exact hacc
  | cons pr ps ih =>
    intro acc hh hacc
    refine ih _ (fun q hq => hh q (List.mem_cons_of_mem _ hq)) ?_
    rcases pr with ⟨i, u⟩
    cases i with
    | zero =>
      have hu : u = 0 := hh (0, u) (List.mem_cons_self _ _) rfl
      subst hu
      show (acc.set 0 (row.getD 0 0 + 0)).headD 0 = row.headD 0
      rw [add_zero, getD_zero_eq_headD]
      cases acc with
      | nil => simpa using hacc
      | cons a t => rfl
    | succ k =>
      show (acc.set (k + 1) (row.getD (k + 1) 0 + u)).headD 0 = row.headD 0
      rw [headD_set_succ]
      exact hacc

/-- Indexing a `zipWith` of row lists inside both lengths. -/
theorem getD_zipWith_lists (f : List ℚ → List ℚ → List ℚ) :
    ∀ (l1 l2 : List (List ℚ)) (i : ℕ), i < l1.length → i < l2.length →
      (List.zipWith f l1 l2).getD i [] = f (l1.getD i []) (l2.getD i []) := by
  intro l1
  induction l1 with
  | nil =>
    intro l2 i h1 _
    simp at h1
  | cons x xs ih =>
    intro l2 i h1 h2
    cases l2 with
    | nil => simp at h2
    | cons y ys =>
      cases i with
      | zero => rfl
      | succ k =>
        simp only [List.zipWith_cons_cons, List.getD_cons_succ]
        exact ih ys k (by simpa using h1) (by simpa using h2)

/-- Indexing a `map` of row lists inside the length. -/
theorem getD_map_lists (f : List ℚ → List ℚ) :
    ∀ (l : List (List ℚ)) (i : ℕ), i < l.length →
      (l.map f).getD i [] = f (l.getD i []) := by
  intro l
  induction l with
  | nil =>
    intro i h
    simp at h
  | cons x xs ih =>
    intro i h
    cases i with
    | zero => rfl
    | succ k =>
      simp only [List.map_cons, List.getD_cons_succ]
      exact ih k (by simpa using h)

/-- The head of a rounded row is the rounding of the head (an empty row
gives 0 on both sides). -/
theorem headD_map_round (row : List ℚ) :
    (row.map (fun q => ((roundEven q : ℤ) : ℚ))).headD 0 =
      ((roundEven (row.headD 0) : ℤ) : ℚ) := by
  cases row with
  | nil =>
    show (0 : ℚ) = ((roundEven 0 : ℤ) : ℚ)
    norm_num [roundEven]
  | cons a t => rfl

/-- Rounding an integer value is the identity. -/
theorem roundEven_intCast (k : ℤ) : roundEven ((k : ℤ) : ℚ) = k := by
  unfold roundEven
  rw [Int.floor_intCast]
  norm_num

/-- An invariant preserved by each step is preserved by the fold. -/
theorem foldl_inv {σ ι : Type} (Inv : σ → Prop) (step : σ → ι → σ)
    (hstep : ∀ s i, Inv s → Inv (step s i)) :
    ∀ (l : List ι) (s : σ), Inv s → Inv (l.foldl step s) := by
  intro l
  induction l with
  | nil =>
    intro s h
    exact h
  | cons x xs ih =>
    intro s h
    exact ih _ (hstep s x h)

/-- One combination iteration preserves the length of the grid and the
head (cell `[0,...,0]`) of every feature row, provided each row's head is
a rounding fixed point. -/
theorem stepCombo_cell0 (dims : List ℕ) (coords : List (List ℚ)) (P : ℕ)
    (feat grid0 : List (List ℚ)) (hn : 0 < dims.length)
    (hf : feat.length = grid0.length)
    (hcell : ∀ row ∈ grid0, ((roundEven (row.headD 0) : ℤ) : ℚ) = row.headD 0)
    (g : List (List ℚ)) (c : List ℕ)
    (hlen : g.length = grid0.length)
    (hinv : ∀ i, (g.getD i []).headD 0 = (grid0.getD i []).headD 0) :
    (stepCombo dims coords P feat g c).length = grid0.length ∧
    ∀ i, ((stepCombo dims coords P feat g c).getD i []).headD 0 =
      (grid0.getD i []).headD 0 := by
  have hzl : (List.zipWith (fun row frow => fancyAdd row
      ((List.range P).map (fun p =>
        (combIndex (pointDimData dims coords p) c,
         frow.getD p 0 * combWts (pointDimData dims coords p) c))))
      g feat).length = grid0.length := by
    rw [List.length_zipWith, hlen, hf]
    omega
  have hsl : (stepCombo dims coords P feat g c).length = grid0.length := by
    rw [stepCombo, List.length_map, hzl]
  refine ⟨hsl, fun i => ?_⟩
  by_cases hi : i < grid0.length
  · rw [stepCombo, getD_map_lists _ _ i (by rw [hzl]; exact hi),
      getD_zipWith_lists _ g feat i (by omega) (by omega), headD_map_round,
      fancyAdd_headD _ _ ?_]
    · rw [hinv i]
      refine hcell (grid0.getD i []) ?_
      rw [List.getD_eq_getElem _ _ hi]
      exact List.getElem_mem hi
    · intro pr hpr
      rw [List.mem_map] at hpr
      obtain ⟨p, _, rfl⟩ := hpr
      intro h0
      have hne : pointDimData dims coords p ≠ [] := by
        have : (pointDimData dims coords p).length = dims.length := by
          simp [pointDimData]
        intro hcon
        rw [hcon] at this
        simp at this
        omega
      have hwts : combWts (pointDimData dims coords p) c = 0 :=
        (combIndexGo_zero (pointDimData dims coords p) c 0
          (pointDimData_wf dims coords p) h0).2 hne
      show (feat.getD i []).getD p 0 * combWts (pointDimData dims coords p) c = 0
      rw [hwts, mul_zero]
  · rw [List.getD_eq_default _ _ (by omega : (stepCombo dims coords P feat g c).length ≤ i),
      List.getD_eq_default _ _ (by omega : grid0.length ≤ i)]

/-- The combination list is never empty (`2^n ≥ 1`). -/
theorem combos_ne_nil (n : ℕ) : combos n ≠ [] := by
  induction n with
  | zero => simp [combos]
  | succ n ih =>
    intro h
    rw [combos, List.append_eq_nil] at h
    rw [List.map_eq_nil_iff] at h
    exact ih h.1

/-- A fold over a nonempty list ends with an application of the step. -/
theorem foldl_last {σ ι : Type} (step : σ → ι → σ) :
    ∀ (l : List ι) (s : σ), l ≠ [] → ∃ s' i, l.foldl step s = step s' i := by
  intro l
  induction l with
  | nil =>
    intro s h
    exact absurd rfl h
  | cons x xs ih =>
    intro s _
    cases xs with
    | nil => exact ⟨s, x, rfl⟩
    | cons y ys => exact ih (step s x) (by simp)

/-! ### Theorems -/

/-- C1 (counterexample): a point whose Z coordinate is NaN but whose X and
Y are valid IS binned: `np.digitize` sends NaN to the last bucket
(`len(z_bins) < n_z_bins`), and the validity test checks NaN only on X.
With `map_size = 1`, `z_bins = [1]`, the single point `(0, 0, NaN)` makes
the grid sum 1, while an empty cloud sums 0 — so the grid sum is NOT
invariant under injecting a NaN point, contradicting the claim that a
point with any NaN coordinate never increments any cell. -/
theorem binPoints_nan_z_cex :
    (binPointsSlice [(Fl.val 0, Fl.val 0, Fl.nan)] 1 [1] 1).sum = 1 ∧
    (Fl.val 0, Fl.val 0, Fl.nan).2.2 = Fl.nan ∧
    (binPointsSlice [] 1 [1] 1).sum = 0 := by
  refine ⟨by with_unfolding_all decide, rfl, by with_unfolding_all decide⟩

/-- C1 (amended): for every input slice the occupancy-grid sum equals
the number of points the CODE judges valid: `X` not NaN and `X_bin`,
`Y_bin`, `Z_bin` in range.  (NaN in `Y` is excluded only indirectly, via
the out-of-range bin its cast produces; NaN in `Z` digitizes to the top
bucket, which IS in range, so such a point is counted.)  Invalid points
carry index 0 with weight 0 and never increment any cell. -/
theorem binPointsSlice_sum_eq_valid_count (pts : List Pt) (m : ℕ)
    (zbins : List ℚ) (res : ℚ) :
    (binPointsSlice pts m zbins res).sum =
      pts.countP (isvalid m zbins res) := by
  show (bincountW (pts.map (indOf m (zbins.length + 1) zbins res))
      (pts.map (fun p => if isvalid m zbins res p then 1 else 0))
      (m * m * (zbins.length + 1))).sum = _
  unfold bincountW
  rw [bincount_sum]
  · rw [List.zip_map', List.map_map]
    exact sum_ite_one pts (isvalid m zbins res)
  · intro pr hpr
    rw [List.zip_map', List.mem_map] at hpr
    obtain ⟨q, _hq, rfl⟩ := hpr
    by_cases hv : isvalid m zbins res q
    · left
      exact indOf_lt m zbins res q hv
    · right
      simp [hv]

/-- C2: the scatter step `grid_flat[..., index] += updates` gathers the
old grid values once and then scatters, so duplicate indices do NOT
accumulate.  Two points with identical interior coordinates (grid
position 2 in a 1-D grid of size 4) and feature value 1 leave cell 2 at
1, not at the claimed sum 2. -/
theorem splat_duplicate_not_accumulated :
    splat_feat_nd 1 [4] [[0, 0, 0, 0]] [[1, 1]] [[0, 0]] 2 =
      some [[0, 0, 1, 0]] := by
  with_unfolding_all decide

/-- C3 (counterexample): cell `[0, ..., 0]` does not always keep its
initial value: the per-combination rounding step rounds the WHOLE grid,
including cell 0.  An initial value of 1/2 at cell 0 becomes 0 even when
no point is splatted at all. -/
theorem splat_cell0_round_cex :
    splat_feat_nd 1 [4] [[1 / 2, 0, 0, 0]] [[]] [[]] 0 =
      some [[0, 0, 0, 0]] ∧ (1 / 2 : ℚ) ≠ 0 := by
  refine ⟨by with_unfolding_all decide, by norm_num⟩

/-- C3 (amended): no point ever receives interpolation weight at grid
index 0 along any dimension, so cell `[0,...,0]` of every feature row is
changed only by the per-combination rounding step; whenever its initial
value is a rounding fixed point (in particular any integer), the returned
grid keeps it exactly. -/
theorem splat_cell0_preserved (dims : List ℕ)
    (grid0 feat coords : List (List ℚ)) (P : ℕ)
    (hn : 0 < dims.length) (hf : feat.length = grid0.length)
    (hcell : ∀ row ∈ grid0, ((roundEven (row.headD 0) : ℤ) : ℚ) = row.headD 0)
    (g : List (List ℚ))
    (hg : splat_feat_nd 1 dims grid0 feat coords P = some g) :
    ∀ i, (g.getD i []).headD 0 = (grid0.getD i []).headD 0 := by
  have hg' : (combos dims.length).foldl (stepCombo dims coords P feat) grid0
      = g := by
    simpa [splat_feat_nd] using hg
  have hfold := foldl_inv
    (fun s => s.length = grid0.length ∧
      ∀ i, (s.getD i []).headD 0 = (grid0.getD i []).headD 0)
    (stepCombo dims coords P feat)
    (fun s c hs =>
      stepCombo_cell0 dims coords P feat grid0 hn hf hcell s c hs.1 hs.2)
    (combos dims.length) grid0 ⟨rfl, fun _ => rfl⟩
  rw [hg'] at hfold
  exact hfold.2

/-- C3 (witness): splatting one point of feature 5 at interior position 2
of a 1-D grid of size 4 with integer initial cell values keeps cell 0 at
its initial value 3. -/
theorem splat_cell0_preserved_witness :
    (([[(3 : ℚ), 0, 5, 0]] : List (List ℚ)).getD 0 []).headD 0 =
      (([[(3 : ℚ), 0, 0, 0]] : List (List ℚ)).getD 0 []).headD 0 :=
  splat_cell0_preserved [4] [[3, 0, 0, 0]] [[5]] [[0]] 1 (by norm_num)
    (by rfl) (by with_unfolding_all decide) [[3, 0, 5, 0]]
    (by with_unfolding_all decide) 0

/-- C4: for a single point strictly inside the grid bounds — along every
dimension both the floor neighbor and the floor+1 neighbor pass the
safety mask (`0 < floor(pos)` and `floor(pos) + 1 < D`) — the combined
interpolation weights of all `2^N` neighbor combinations computed by
`splat_feat_nd` sum to exactly 1. -/
theorem splat_weights_sum_one (dims : List ℕ) (coords : List (List ℚ))
    (p : ℕ)
    (h : ∀ dd ∈ pointDimData dims coords p,
        0 < ⌊dd.pos⌋ ∧ ⌊dd.pos⌋ + 1 < (dd.D : ℤ)) :
    ((combos dims.length).map (combWts (pointDimData dims coords p))).sum
      = 1 := by
  have hlen : (pointDimData dims coords p).length = dims.length := by
    simp [pointDimData]
  rw [← hlen, sum_combos_combWts]
  apply List.prod_eq_one
  intro x hx
  rw [List.mem_map] at hx
  obtain ⟨dd, hdd, rfl⟩ := hx
  obtain ⟨hd0, hd1⟩ := h dd hdd
  rw [pointDimData, List.mem_map] at hdd
  obtain ⟨d, _hd, hdd_eq⟩ := hdd
  subst hdd_eq
  exact dimData_w_sum _ _ hd0 hd1

/-- C4 (witness): one point at coordinate 1/3 in a 1-D grid of size 4
(grid position 8/3, interior), whose two weights 1/3 and 2/3 sum to 1. -/
theorem splat_weights_sum_one_witness :
    ((combos ([4] : List ℕ).length).map
      (combWts (pointDimData [4] [[1 / 3]] 0))).sum = 1 :=
  splat_weights_sum_one [4] [[1 / 3]] 0 (by with_unfolding_all decide)

/-- C5: the batch loop of `bin_points` rebinds `counts` to the current
slice's histogram instead of appending it, so for a batched input with
two slices only the last slice's `map_size * map_size * n_z_bins` numbers
remain and the final reshape to the batched shape fails (element-count
mismatch, modelled as `none`); a single-slice input still works and
returns that slice's histogram. -/
theorem bin_points_batch_overwrite :
    bin_points [[(Fl.val 0, Fl.val 0, Fl.val 0)],
        [(Fl.val 0, Fl.val 0, Fl.val (3 / 2))]] 1 [1] 1 = none ∧
    bin_points [[(Fl.val 0, Fl.val 0, Fl.val 0)]] 1 [1] 1 =
      some (binPointsSlice [(Fl.val 0, Fl.val 0, Fl.val 0)] 1 [1] 1) := by
  refine ⟨by with_unfolding_all decide, by with_unfolding_all decide⟩

/-- C6 (counterexample): with `z_bins = [1]` a point whose Z is exactly
the threshold 1 lands in bucket 1 (the flat grid is `[cell(z=bucket 0),
cell(z=bucket 1)]` for `map_size = 1`), not in the claimed lower bucket
0. -/
theorem digitize_boundary_cex :
    binPointsSlice [(Fl.val 0, Fl.val 0, Fl.val 1)] 1 [1] 1 = [0, 1] ∧
    ([0, 1] : List ℕ) ≠ [1, 0] := by
  refine ⟨by with_unfolding_all decide, by decide⟩

/-- C6 (amended): for strictly increasing thresholds, a Z value exactly
equal to threshold `z_bins[i]` digitizes to bucket `i + 1` — the
HIGHER-indexed of the two adjacent buckets (the bucket whose interval is
closed at `z_bins[i]` on the left), per numpy's `right=False`
convention. -/
theorem digitize_boundary_upper (bins : List ℚ) (hs : bins.Sorted (· < ·)) :
    ∀ (i : ℕ) (hi : i < bins.length),
      digitizeQ (bins.get ⟨i, hi⟩) bins = i + 1 := by
  induction bins with
  | nil =>
    intro i hi
    simp at hi
  | cons b rest ih =>
    rw [List.sorted_cons] at hs
    obtain ⟨hb, hrest⟩ := hs
    intro i hi
    cases i with
    | zero =>
      show digitizeQ b (b :: rest) = 1
      unfold digitizeQ
      rw [List.filter_cons_of_pos (by simp)]
      have hnil : rest.filter (fun x => decide (x ≤ b)) = [] := by
        rw [List.filter_eq_nil_iff]
        intro a ha
        simp only [decide_eq_true_eq, not_le]
        exact hb a ha
      rw [List.length_cons, hnil]
      rfl
    | succ k =>
      have hk : k < rest.length := by simpa using hi
      have hget : (b :: rest).get ⟨k + 1, hi⟩ = rest.get ⟨k, hk⟩ := rfl
      rw [hget]
      unfold digitizeQ
      rw [List.filter_cons_of_pos (by
        simp only [decide_eq_true_eq]
        exact le_of_lt (hb _ (rest.get_mem k hk)))]
      rw [List.length_cons]
      have hih := ih hrest k hk
      unfold digitizeQ at hih
      rw [hih]

/-- C6 (witness): with thresholds `[1, 2]`, the value 1 (threshold index
0) digitizes to bucket 1. -/
theorem digitize_boundary_upper_witness :
    digitizeQ (([1, 2] : List ℚ).get ⟨0, by norm_num⟩) [1, 2] = 0 + 1 :=
  digitize_boundary_upper [1, 2] (by norm_num [List.sorted_cons]) 0
    (by norm_num)

/-- C7: `splat_feat_nd` rounds the whole accumulated grid once per
neighbor-combination iteration, not only once at the end: (1) every value
of any returned grid is an integer (a fixed point of half-to-even
rounding), because the last combination iteration ends with the rounding
step; (2) the per-iteration rounding is observable — on a 1-D grid of
size 6 with two points of weight 1/2 + 1/2 meeting at cell 3, rounding
per iteration yields a zero grid while rounding once at the end yields a
1 in cell 3, so intermediate rounding compounds. -/
theorem splat_round_per_combination :
    (∀ (dims : List ℕ) (grid0 feat coords : List (List ℚ)) (P : ℕ)
        (g : List (List ℚ)), 0 < dims.length →
        splat_feat_nd 1 dims grid0 feat coords P = some g →
        ∀ row ∈ g, ∀ q ∈ row, ((roundEven q : ℤ) : ℚ) = q) ∧
    splat_feat_nd 1 [6] [[0, 0, 0, 0, 0, 0]] [[1, 1]] [[-(1 / 6), 1 / 6]] 2 ≠
      splatRoundOnce 1 [6] [[0, 0, 0, 0, 0, 0]] [[1, 1]] [[-(1 / 6), 1 / 6]] 2
      := by
  constructor
  · intro dims grid0 feat coords P g _ hg row hrow q hq
    have hg' : (combos dims.length).foldl (stepCombo dims coords P feat) grid0
        = g := by
      simpa [splat_feat_nd] using hg
    obtain ⟨s', c, hlast⟩ := foldl_last (stepCombo dims coords P feat)
      (combos dims.length) grid0 (combos_ne_nil _)
    rw [hlast] at hg'
    subst hg'
    rw [stepCombo, List.mem_map] at hrow
    obtain ⟨r, _, rfl⟩ := hrow
    rw [List.mem_map] at hq
    obtain ⟨q0, _, rfl⟩ := hq
    rw [roundEven_intCast]
  · with_unfolding_all decide

/-- C7 (witness): the integrality statement applied at a concrete call
(1-D grid of size 4, initial values 0, no points), showing its
hypotheses are satisfiable. -/
theorem splat_round_per_combination_witness :
    ((roundEven ((0 : ℚ)) : ℤ) : ℚ) = 0 :=
  splat_round_per_combination.1 [4] [[0, 0, 0, 0]] [[]] [[]] 0
    [[0, 0, 0, 0]] (by norm_num) (by with_unfolding_all decide)
    [0, 0, 0, 0] (by simp) 0 (by simp)

/-- C8: the scatter step of `splat_feat_nd` asserts a single batch
element: with batch dimension 1 the assertion holds and a grid is
returned; with batch dimension greater than 1 the call fails at the
assertion (returns no grid) instead of producing a wrong one. -/
theorem splat_batch_assert (B : ℕ) (dims : List ℕ)
    (grid0 feat coords : List (List ℚ)) (P : ℕ) :
    (B = 1 → ∃ g, splat_feat_nd B dims grid0 feat coords P = some g) ∧
    (1 < B → splat_feat_nd B dims grid0 feat coords P = none) := by
  constructor
  · intro hB
    subst hB
    exact ⟨_, rfl⟩
  · intro hB
    have : B ≠ 1 := by omega
    simp [splat_feat_nd, this]

/-- C8 (witness): the batch-size dichotomy at concrete inputs: batch 1
succeeds, batch 2 fails the assertion. -/
theorem splat_batch_assert_witness :
    (∃ g, splat_feat_nd 1 [2] [[0, 0]] [[]] [[]] 0 = some g) ∧
    splat_feat_nd 2 [2] [[0, 0]] [[]] [[]] 0 = none :=
  ⟨(splat_batch_assert 1 [2] [[0, 0]] [[]] [[]] 0).1 rfl,
   (splat_batch_assert 2 [2] [[0, 0]] [[]] [[]] 0).2 (by norm_num)⟩

/-- C9 (counterexample): the returned `fy` is NOT `fx * height / width`:
at `width = 4`, `height = 2`, `tan(deg2rad(hfov/2)) = 1`, the code
returns `fy = 2` while the claimed formula gives `fx * 2 / 4 = 1`. -/
theorem fy_aspect_cex :
    (get_camera_intrinsic_parameters 4 2 1).fy ≠
      (get_camera_intrinsic_parameters 4 2 1).fx * 2 / 4 := by
  with_unfolding_all decide

/-- C9 (amended): the code divides `temp` (not `fx`) by the aspect
ratio, and the aspect ratio cancels: for any nonzero height the returned
`fy` equals `(width / 2) / temp`, i.e. exactly the `fx` formula, not
`fx * height / width`. -/
theorem fy_eq_fx_formula (w h t : ℚ) (hh : h ≠ 0) :
    (get_camera_intrinsic_parameters w h t).fy = w / 2 / t := by
  unfold get_camera_intrinsic_parameters
  simp only
  rcases eq_or_ne w 0 with hw | hw
  · subst hw
    simp
  · rcases eq_or_ne t 0 with ht | ht
    · subst ht
      simp
    · field_simp
      ring

/-- C9 (witness): the amended `fy` formula at `width = 4`, `height = 2`,
`temp = 1`. -/
theorem fy_eq_fx_formula_witness :
    (get_camera_intrinsic_parameters 4 2 1).fy = 4 / 2 / 1 :=
  fy_eq_fx_formula 4 2 1 (by norm_num)

/-- C10: in exact arithmetic the vertical focal length returned by
`get_camera_intrinsic_parameters` always equals the horizontal one,
whatever the aspect ratio (any nonzero height). -/
theorem fy_eq_fx (w h t : ℚ) (hh : h ≠ 0) :
    (get_camera_intrinsic_parameters w h t).fy =
      (get_camera_intrinsic_parameters w h t).fx := by
  unfold get_camera_intrinsic_parameters
  simp only
  rcases eq_or_ne w 0 with hw | hw
  · subst hw
    simp
  · rcases eq_or_ne t 0 with ht | ht
    · subst ht
      simp
    · field_simp
      ring

/-- C10 (witness): `fy = fx` at the non-square image `width = 6`,
`height = 2`, `temp = 1`. -/
theorem fy_eq_fx_witness :
    (get_camera_intrinsic_parameters 6 2 1).fy =
      (get_camera_intrinsic_parameters 6 2 1).fx :=
  fy_eq_fx 6 2 1 (by norm_num)

end DepthUtils
